import Mathlib

/-!
Verification of scripts/merge-pr.py: a script that merges an approved pull
request, composing a structured commit message from pull-request metadata.

The script is embedded shallowly: Python strings are modelled as `List Char`
(ASCII scope; `String` at the boundaries), network calls (the GitHub client)
as explicit oracle arguments, subprocess and file-system effects as event
traces, and `sys.exit` / exceptions as outcome values. The script's call to
`textwrap.wrap` is modelled after CPython's `textwrap.TextWrapper` with the
script's (default) options: `expand_tabs`, `replace_whitespace`,
`drop_whitespace`, `break_long_words`, `break_on_hyphens` all true,
`fix_sentence_endings` false, empty indents, no `max_lines`.
-/

namespace MergePr

/-- Python whitespace (ASCII scope): the characters of `string.whitespace`,
which is also textwrap's whitespace class and what `str.strip()` removes. -/
def isSpaceC (c : Char) : Bool :=
  c = ' ' || c = '\t' || c = '\n' || c = '\x0b' || c = '\x0c' || c = '\r'

/-- The regex class `\w` (ASCII scope): letters, digits, underscore. -/
def isWordC (c : Char) : Bool := c.isAlphanum || c = '_'

/-- The regex class `[^\d\W]` of textwrap's wordsep pattern (ASCII scope):
a word character that is not a digit. -/
def isLetterC (c : Char) : Bool := c.isAlpha || c = '_'

/-- textwrap's word-punctuation class (ASCII scope). -/
def isWpC (c : Char) : Bool :=
  isWordC c || c = '!' || c = '"' || c = '\'' || c = '&' ||
    c = '.' || c = ',' || c = '?'

/-- Python `str.strip()`: remove leading and trailing whitespace. -/
def pyStrip (l : List Char) : List Char :=
  ((l.dropWhile isSpaceC).reverse.dropWhile isSpaceC).reverse

/-- Python `str.strip()` on `String`. -/
def pyStripS (s : String) : String := String.mk (pyStrip s.data)

/-- Python `str.expandtabs(tabsize)`: each tab advances to the next multiple
of `tabsize` (removed when `tabsize` is zero); newline and carriage return
reset the column. -/
def expandTabsAux (tabsize : Nat) : Nat → List Char → List Char
  | _, [] => []
  | col, c :: rest =>
    if c = '\t' then
      if tabsize = 0 then expandTabsAux tabsize col rest
      else
        let pad := tabsize - col % tabsize
        List.replicate pad ' ' ++ expandTabsAux tabsize (col + pad) rest
    else if c = '\n' || c = '\r' then c :: expandTabsAux tabsize 0 rest
    else c :: expandTabsAux tabsize (col + 1) rest

/-- textwrap's `_munge_whitespace` with the default options: expand tabs
(tab size 8), then replace every whitespace character by a space. -/
def munge (l : List Char) : List Char :=
  (expandTabsAux 8 0 l).map fun c => if isSpaceC c then ' ' else c

/-- Lookbehind of the compound-word hyphen branch of textwrap's wordsep
pattern, on the consumed text most recent character first: the text ends in
letter letter hyphen, or letter hyphen letter hyphen. -/
def hyphenBehind (behind : List Char) : Bool :=
  match behind with
  | b0 :: b1 :: b2 :: rest =>
    b0 = '-' &&
    ((isLetterC b1 && isLetterC b2) ||
     (match rest with
      | b3 :: _ => isLetterC b1 && b2 = '-' && isLetterC b3
      | [] => false))
  | _ => false

/-- Lookahead of the compound-word hyphen branch: letter, optional hyphen,
letter. -/
def hyphenAhead (rest : List Char) : Bool :=
  match rest with
  | a0 :: a1 :: more =>
    (isLetterC a0 && isLetterC a1) ||
    (match more with
     | a2 :: _ => isLetterC a0 && a1 = '-' && isLetterC a2
     | [] => false)
  | _ => false

/-- Lookahead of the em-dash branches of the wordsep pattern: a run of two or
more hyphens followed by a word character. -/
def emDashAhead (rest : List Char) : Bool :=
  decide (2 ≤ (rest.takeWhile (· = '-')).length) &&
  (match (rest.dropWhile (· = '-')).head? with
   | some w => isWordC w
   | none => false)

/-- Does the already-consumed text (most recent character first) end in a
word-punctuation character? -/
def behindWp (behind : List Char) : Bool :=
  match behind.head? with
  | some b => isWpC b
  | none => false

/-- The lazy word branch of the wordsep pattern: extend the word one character
at a time, stopping at a compound-word hyphen, at whitespace or end of input,
or before an em-dash. `accRev` is the word so far (most recent character
first, nonempty at every call), `pre` the text before the word (most recent
character first). Returns the word and the unconsumed rest. -/
def scanWord (pre : List Char) : List Char → List Char → List Char × List Char
  | accRev, [] => (accRev.reverse, [])
  | accRev, c :: rs =>
    if hyphenBehind (accRev ++ pre) && hyphenAhead (c :: rs) then
      (accRev.reverse, c :: rs)
    else if isSpaceC c then (accRev.reverse, c :: rs)
    else if behindWp (accRev ++ pre) && emDashAhead (c :: rs) then
      (accRev.reverse, c :: rs)
    else scanWord pre (c :: accRev) rs

/-- textwrap's `_split` on already munged text: the chunk list of the wordsep
pattern, scanning left to right. At each position the pattern matches a
whitespace run, a standalone em-dash run (when preceded by word punctuation
and followed by a word character), or a word. `pre` is the already-split text
most recent character first; the fuel bounds the recursion by the input
length (each step consumes at least one character). -/
def splitAuxF : Nat → List Char → List Char → List (List Char)
  | 0, _, _ => []
  | _ + 1, _, [] => []
  | fuel + 1, pre, c :: rest =>
    if isSpaceC c then
      let run := (c :: rest).takeWhile isSpaceC
      run :: splitAuxF fuel (run.reverse ++ pre) ((c :: rest).dropWhile isSpaceC)
    else if behindWp pre && emDashAhead (c :: rest) then
      let run := (c :: rest).takeWhile (· = '-')
      run :: splitAuxF fuel (run.reverse ++ pre) ((c :: rest).dropWhile (· = '-'))
    else
      let wr := scanWord pre [c] rest
      wr.1 :: splitAuxF fuel (wr.1.reverse ++ pre) wr.2

/-- textwrap's `_split_chunks` step on munged text. -/
def splitChunks (l : List Char) : List (List Char) := splitAuxF l.length [] l

/-- The greedy inner loop of textwrap's `_wrap_chunks`: take chunks while the
line stays within the width. Returns the chunks taken and the rest. -/
def takeFits (width : Nat) : Nat → List (List Char) → List (List Char) × List (List Char)
  | _, [] => ([], [])
  | curLen, c :: rest =>
    if curLen + c.length ≤ width then
      let tr := takeFits width (curLen + c.length) rest
      (c :: tr.1, tr.2)
    else ([], c :: rest)

/-- Python `str.rfind` of a hyphen restricted to indices below the bound. -/
def rfindHyphen (chunk : List Char) (bound : Nat) : Option Nat :=
  (((chunk.take bound).enum.filter fun p => p.2 = '-').getLast?).map (·.1)

/-- textwrap's `_handle_long_word` with `break_long_words` and
`break_on_hyphens`: split the chunk after the last hyphen that fits when the
prefix before that hyphen has a non-hyphen character, else at the space left
on the line. Returns the piece put on the current line and the rest of the
chunk. -/
def handleLongWord (width curLen : Nat) (chunk : List Char) : List Char × List Char :=
  let spaceLeft := if width < 1 then 1 else width - curLen
  let e :=
    if decide (spaceLeft < chunk.length) then
      match rfindHyphen chunk spaceLeft with
      | some h =>
        if decide (0 < h) && (chunk.take h).any (fun c => c ≠ '-') then h + 1
        else spaceLeft
      | none => spaceLeft
    else spaceLeft
  (chunk.take e, chunk.drop e)

/-- The single trailing deletion of `_wrap_chunks`: drop the final chunk of
the line when it is pure whitespace. -/
def dropTrailingWs (l : List (List Char)) : List (List Char) :=
  match l.reverse with
  | x :: rest => if (pyStrip x).isEmpty then rest.reverse else l
  | [] => l

/-- The outer loop of textwrap's `_wrap_chunks` (empty indents, no
`max_lines`): on every line but the first drop a leading whitespace chunk,
fill the line greedily, break a chunk longer than the width, drop trailing
whitespace and emit the line when nonempty. `lines` holds the emitted lines
in reverse; the fuel bounds the recursion (every step consumes a chunk or
shortens the head chunk). -/
def wrapAux (width : Nat) : Nat → List (List Char) → List (List Char) → List (List Char)
  | 0, lines, _ => lines.reverse
  | _ + 1, lines, [] => lines.reverse
  | fuel + 1, lines, c :: cs =>
    let chunks := if !lines.isEmpty && (pyStrip c).isEmpty then cs else c :: cs
    let tr := takeFits width 0 chunks
    let tr2 :=
      match tr.2 with
      | [] => tr
      | d :: ds =>
        if width < d.length then
          let pr := handleLongWord width (tr.1.map List.length).sum d
          (tr.1 ++ [pr.1], pr.2 :: ds)
        else tr
    let line := dropTrailingWs tr2.1
    let lines' := if line.isEmpty then lines else line.flatten :: lines
    wrapAux width fuel lines' tr2.2

/-- `textwrap.wrap(line, width)` with the script's (default) options: munge
whitespace, split into chunks, wrap greedily. The fuel covers every step of
the wrap loop. -/
def textwrapWrap (width : Nat) (l : List Char) : List (List Char) :=
  let cs := splitChunks (munge l)
  wrapAux width (cs.length + (cs.map List.length).sum + 1) [] cs

/-- The triple-backtick fence marker tested by wrap_text. -/
def fenceMarker : List Char := ("```" : String).data

/-- Is the line a fence line: its stripped content starts with the marker? -/
def isFenceLine (l : List Char) : Bool := fenceMarker.isPrefixOf (pyStrip l)

/-- The per-line loop of wrap_text: a line whose stripped content starts with
a triple backtick toggles the code-block flag and passes through unmodified;
lines inside a code block pass through unmodified; every other line is
word-wrapped (and contributes each wrapped piece as one output line). -/
def wrapTextLoop (width : Nat) : List (List Char) → Bool → List (List Char)
  | [], _ => []
  | l :: ls, inCode =>
    if isFenceLine l then l :: wrapTextLoop width ls (!inCode)
    else if inCode then l :: wrapTextLoop width ls true
    else textwrapWrap width l ++ wrapTextLoop width ls false

/-- Python `str.split` at newlines (keeps empty pieces, one more piece than
separators). -/
def splitOnNl : List Char → List (List Char)
  | [] => [[]]
  | c :: rest =>
    if c = '\n' then [] :: splitOnNl rest
    else
      match splitOnNl rest with
      | h :: t => (c :: h) :: t
      | [] => [[c]]

/-- `wrap_text` from merge-pr.py: split the text into lines, wrap each line
outside fenced code blocks to the width, join with newlines. -/
def wrap_text (text : String) (width : Nat := 72) : String :=
  String.mk (List.intercalate ['\n'] (wrapTextLoop width (splitOnNl text.data) false))

/-! ### Data model: user mapping, platform objects -/

/-- One entry of the `.github.json` user mapping: a display name and an
email address. -/
structure UserEntry where
  name : String
  email : String
deriving DecidableEq, Repr

/-- The loaded user mapping (`user_mapping` in the script): platform
username to entry. A Python dict, modelled as an association list with the
first binding of a key the effective one. -/
def UserMapping := List (String × UserEntry)

/-- Python `username in user_mapping` / `user_mapping[username]`. -/
def lookupUM (m : UserMapping) (username : String) : Option UserEntry :=
  (m.find? fun p => p.1 = username).map (·.2)

/-- A platform user profile as PyGithub exposes it: `name` and `email` may be
absent (None). An empty string is falsy in Python, like None. -/
structure GithubUser where
  name : Option String
  email : Option String
deriving DecidableEq, Repr

/-- Python truthiness of an optional string: None and the empty string are
falsy. -/
def pyTruthy : Option String → Bool
  | some s => !(s = "")
  | none => false

/-- The outcome of the platform profile query `g.get_user(username)`: a user
object, or an exception (network error, not found, rate limit) carrying its
message. -/
def ProfileOracle := String → Except String GithubUser

/-- A review on the pull request: its state and the reviewing user's login. -/
structure Review where
  state : String
  userLogin : String
deriving DecidableEq, Repr

/-- The outcome of `pr.merge(...)` as PyGithub reports it. -/
structure MergeStatus where
  merged : Bool
  sha : String
  message : String
deriving DecidableEq, Repr

/-- A pull request object as the script reads it: metadata plus the
mergeability fields and the merge outcome the platform would report. -/
structure PullRequest where
  number : Nat
  title : String
  userName : Option String
  userLogin : String
  headRef : String
  headSha : String
  body : Option String
  reviews : List Review
  mergeable : Bool
  mergeableState : String
  mergeResult : MergeStatus
deriving DecidableEq, Repr

/-! ### Identity Resolver: get_user_email -/

/-- `get_user_email` from merge-pr.py, instrumented with a network-call
count (second component): a username in the mapping resolves to
`name <email>` from the mapping with no profile query; otherwise the profile
is queried once — on success the display name falls back to the login when
absent or empty, and the result is `name <email>` when a public email exists,
else `name (@username)`; on any exception the error is reported and a
synthesized no-reply address is returned. Total by construction: it never
raises and always produces a string. -/
def get_user_email (m : UserMapping) (profiles : ProfileOracle)
    (username : String) : String × Nat :=
  match lookupUM m username with
  | some entry => (entry.name ++ " <" ++ entry.email ++ ">", 0)
  | none =>
    match profiles username with
    | .ok user =>
      let name := if pyTruthy user.name then user.name.getD username else username
      if pyTruthy user.email then (name ++ " <" ++ user.email.getD "" ++ ">", 1)
      else (name ++ " (@" ++ username ++ ")", 1)
    | .error _ =>
      (username ++ " <" ++ username ++ "@users.noreply.github.com>", 1)

/-! ### PR Metadata Fetcher: get_pr_info -/

/-- The review loop of `get_pr_info`: start from an empty list and append the
resolved identity of each reviewer whose review state is exactly
"APPROVED", in listing order. -/
def collectApprovers (m : UserMapping) (profiles : ProfileOracle) :
    List Review → List String
  | [] => []
  | r :: rs =>
    if r.state = "APPROVED" then
      (get_user_email m profiles r.userLogin).1 :: collectApprovers m profiles rs
    else collectApprovers m profiles rs

/-- The typed view of the dictionary `get_pr_info` returns (its keys become
fields; the dictionary has no "pr_object" key, see `get_pr_info_dict`). -/
structure PrInfo where
  number : Nat
  title : String
  author : String
  head : String
  head_sha : String
  body : String
  reviewed_by : List String
deriving DecidableEq, Repr

/-- `get_pr_info` from merge-pr.py: author display name with fallback to the
login, the stripped body (empty when absent or falsy), and the resolved
approver identities in review order. -/
def get_pr_info (m : UserMapping) (profiles : ProfileOracle)
    (pr : PullRequest) : PrInfo :=
  { number := pr.number
    title := pr.title
    author := if pyTruthy pr.userName then pr.userName.getD pr.userLogin else pr.userLogin
    head := pr.headRef
    head_sha := pr.headSha
    body := if pyTruthy pr.body then pyStripS (pr.body.getD "") else ""
    reviewed_by := collectApprovers m profiles pr.reviews }

/-- A Python value stored in the metadata dictionary. -/
inductive PyVal where
  | vInt (n : Nat)
  | vStr (s : String)
  | vList (l : List String)
  | vPr (p : PullRequest)
deriving DecidableEq

/-- The dictionary literal `get_pr_info` returns, key by key as written in
the source. There is no "pr_object" binding. -/
def get_pr_info_dict (m : UserMapping) (profiles : ProfileOracle)
    (pr : PullRequest) : List (String × PyVal) :=
  let info := get_pr_info m profiles pr
  [("number", .vInt info.number),
   ("title", .vStr info.title),
   ("author", .vStr info.author),
   ("head", .vStr info.head),
   ("head_sha", .vStr info.head_sha),
   ("body", .vStr info.body),
   ("reviewed_by", .vList info.reviewed_by)]

/-- Python dictionary subscript, as an option: `none` is a KeyError. -/
def dictGet (d : List (String × PyVal)) (k : String) : Option PyVal :=
  (d.find? fun p => p.1 = k).map (·.2)

/-! ### Commit Message Formatter (merge_pr, lines 110-121) -/

/-- The commit title: Merge '<title>' from <author>. -/
def commitTitleOf (info : PrInfo) : String :=
  "Merge '" ++ info.title ++ "' from " ++ info.author

/-- The assembled commit message: title, blank line, wrapped body, then one
"Reviewed-by:" line per approver (each preceded by one newline, so the first
follows the blank line left by the body's trailing newline), then a blank
line and the "Closes #N" reference. -/
def composeCommitMessage (info : PrInfo) : String :=
  let commit_title := commitTitleOf info
  let commit_body := wrap_text info.body
  let m0 := commit_title ++ "\n\n" ++ commit_body ++ "\n"
  let m1 := info.reviewed_by.foldl (fun acc a => acc ++ "\nReviewed-by: " ++ a) m0
  m1 ++ "\n\nCloses #" ++ toString info.number

/-! ### Merge Executor, API strategy (merge_pr, lines 123-146) -/

/-- Python `str.replace(pat, repl)` for a nonempty pattern: replace every
non-overlapping occurrence, scanning left to right. Fuel bounds the
recursion by the input length. -/
def replaceAllAux (pat repl : List Char) : Nat → List Char → List Char
  | 0, s => s
  | _ + 1, [] => []
  | fuel + 1, c :: rest =>
    if pat ≠ [] && pat.isPrefixOf (c :: rest) then
      repl ++ replaceAllAux pat repl fuel ((c :: rest).drop pat.length)
    else c :: replaceAllAux pat repl fuel rest

/-- Python `str.replace` on `String` (nonempty pattern). -/
def pyReplace (s pat repl : String) : String :=
  String.mk (replaceAllAux pat.data repl.data s.data.length s.data)

/-- An observable event of the API-strategy branch. -/
inductive ApiEv where
  | checkMergeable
  | mergeCall (method : String) (commitTitle : String) (commitMessage : String)
  | printErr
  | printSuccess
  | exit (code : Nat)
deriving DecidableEq, Repr

/-- The API branch of `merge_pr` as an event trace: read `pr_info["pr_object"]`
(a KeyError — `none` — is caught by the surrounding `except`, which prints the
error and exits 1); check `pr.mergeable` and exit 1 when false; otherwise call
`pr.merge` with method "merge", the composed title, and the composed message
with the title and following blank line removed; report success or exit 1 on
a failed merge. -/
def merge_pr_api (info : List (String × PyVal))
    (commit_title commit_message : String) : List ApiEv :=
  match dictGet info "pr_object" with
  | some (.vPr pr) =>
    if !pr.mergeable then [.checkMergeable, .printErr, .exit 1]
    else
      let result := pr.mergeResult
      let call := ApiEv.mergeCall "merge" commit_title
        (pyReplace commit_message (commit_title ++ "\n\n") "")
      if result.merged then [.checkMergeable, call, .printSuccess]
      else [.checkMergeable, call, .printErr, .exit 1]
  | _ => [.printErr, .exit 1]

/-! ### Merge Executor, local strategy (merge_pr, lines 148-182) -/

/-- The outcome of one `run_command` call: a completed process with its
output, error text and return code, or an unexpected exception. -/
inductive CmdBehavior where
  | ret (stdout : String) (stderr : String) (returncode : Int)
  | raise
deriving DecidableEq, Repr

/-- An observable event of the local-strategy branch. -/
inductive LocalEv where
  | createTemp
  | gitFetch
  | gitCheckout
  | gitMerge
  | removeTemp
deriving DecidableEq, Repr

/-- How the local branch's try-block ends. -/
inductive LocalOutcome where
  | success
  | exitCode (n : Nat)
  | raised
deriving DecidableEq, Repr

/-- The try-block of the local branch: run `git fetch origin pull/<N>/head`,
`git checkout main`, `git merge --no-ff <sha> -F <tempfile>` in order; a
non-zero return code prints the error and exits 1 (stopping the sequence), an
unexpected exception propagates. -/
def localCmds (fetch checkout merge : CmdBehavior) : List LocalEv × LocalOutcome :=
  match fetch with
  | .raise => ([.gitFetch], .raised)
  | .ret _ _ rc =>
    if rc ≠ 0 then ([.gitFetch], .exitCode 1)
    else
      match checkout with
      | .raise => ([.gitFetch, .gitCheckout], .raised)
      | .ret _ _ rc2 =>
        if rc2 ≠ 0 then ([.gitFetch, .gitCheckout], .exitCode 1)
        else
          match merge with
          | .raise => ([.gitFetch, .gitCheckout, .gitMerge], .raised)
          | .ret _ _ rc3 =>
            if rc3 ≠ 0 then ([.gitFetch, .gitCheckout, .gitMerge], .exitCode 1)
            else ([.gitFetch, .gitCheckout, .gitMerge], .success)

/-- A `try ... finally` around a traced computation: the finally events run
after the body whatever its outcome (success, `sys.exit`, or an exception),
and the outcome is then propagated. -/
def tryFinally (body : List LocalEv × LocalOutcome) (fin : List LocalEv) :
    List LocalEv × LocalOutcome :=
  (body.1 ++ fin, body.2)

/-- The local branch of `merge_pr` as an event trace: create the temporary
commit-message file, then run the three git commands inside a try whose
finally removes the temporary file. -/
def merge_pr_local (fetch checkout merge : CmdBehavior) :
    List LocalEv × LocalOutcome :=
  let tf := tryFinally (localCmds fetch checkout merge) [.removeTemp]
  (LocalEv.createTemp :: tf.1, tf.2)

/-! ### CLI entry (lines 185-199) -/

/-- The regex match `^\d+$` of the entry point (Python semantics: `$` also
matches just before one trailing newline). -/
def isDigitsMatch (s : String) : Bool :=
  let l := s.data
  let core := if l.getLast? = some '\n' then l.dropLast else l
  !core.isEmpty && core.all Char.isDigit

/-- How a CLI invocation is dispatched. -/
inductive CliOutcome where
  | usageExit
  | badNumberExit
  | run (prNumber : String) (useApi : Bool)
deriving DecidableEq, Repr

/-- The `__main__` block of merge-pr.py: exit 1 with a usage message unless
there are exactly two argv entries (program name and PR number); exit 1
unless the PR number matches `^\d+$`; then set use_api, clearing it only when
there are three argv entries with "--local" last (dead after the first
check), and call merge_pr. -/
def mainEntry (argv : List String) : CliOutcome :=
  if argv.length ≠ 2 then .usageExit
  else
    let pr_number := argv.getD 1 ""
    if !isDigitsMatch pr_number then .badNumberExit
    else
      let use_api := !(argv.length = 3 && argv.getD 2 "" = "--local")
      .run pr_number use_api

/-! ### Spec-side definition for the word-wrap round-trip claim -/

/-- Modelled from the spec's words for the round-trip claim: the original
text with internal whitespace runs collapsed to single spaces. -/
def collapseWs : List Char → List Char
  | [] => []
  | [c] => if isSpaceC c then [' '] else [c]
  | c :: d :: rest =>
    if isSpaceC c && isSpaceC d then collapseWs (d :: rest)
    else (if isSpaceC c then ' ' else c) :: collapseWs (d :: rest)

/-- `collapseWs` on `String`. -/
def collapseWsS (s : String) : String := String.mk (collapseWs s.data)

/-! ## Claims -/

/-- C1 (code bug in the source): the dictionary returned by get_pr_info has
no "pr_object" key, so under the API strategy the access
`pr_info["pr_object"]` always raises KeyError; the surrounding except
catches it, prints the error and exits 1. The mergeable flag is never
queried and the platform merge operation is never invoked, for every run. -/
theorem c1_api_branch_never_merges (m : UserMapping) (profiles : ProfileOracle)
    (pr : PullRequest) (ct cm : String) :
    dictGet (get_pr_info_dict m profiles pr) "pr_object" = none ∧
    merge_pr_api (get_pr_info_dict m profiles pr) ct cm = [.printErr, .exit 1] ∧
    ApiEv.checkMergeable ∉ merge_pr_api (get_pr_info_dict m profiles pr) ct cm ∧
    ∀ meth t msg, ApiEv.mergeCall meth t msg ∉
      merge_pr_api (get_pr_info_dict m profiles pr) ct cm := by
  have hk : dictGet (get_pr_info_dict m profiles pr) "pr_object" = none := by
    simp [dictGet, get_pr_info_dict, List.find?]
  have hr : merge_pr_api (get_pr_info_dict m profiles pr) ct cm = [.printErr, .exit 1] := by
    unfold merge_pr_api
    rw [hk]
  refine ⟨hk, hr, ?_, ?_⟩
  · rw [hr]; simp
  · intro meth t msg; rw [hr]; simp

/-- C2 (code bug in the source): the entry point first demands exactly two
argv entries, then tests `len(sys.argv) == 3` for "--local" — dead code. An
invocation with "--local" as second argument therefore prints the usage
message and exits 1, and no invocation at all selects the local strategy. -/
theorem c2_local_flag_unreachable :
    mainEntry ["merge_pr.py", "42", "--local"] = .usageExit ∧
    ∀ (argv : List String) (p : String), mainEntry argv ≠ .run p false := by
  refine ⟨by decide, ?_⟩
  intro argv p h
  unfold mainEntry at h
  by_cases hl : argv.length = 2
  · rw [if_neg (by omega)] at h
    dsimp only at h
    split at h
    · exact absurd h (by simp)
    · injection h with h1 h2
      rw [hl] at h2
      simp at h2
  · rw [if_pos hl] at h
    exact absurd h (by simp)

/-- C4: the end-to-end scenario — PR #42 titled "Fix bug" by alice with body
"Short fix." and one approval by bob, who is mapped to Bob B
<bob@x.com> — assembles exactly the claimed commit message: title line,
blank line, body, blank line, one Reviewed-by line, blank line, Closes
reference. The profile oracle is arbitrary: the mapping answers without a
network call. -/
theorem c4_end_to_end_message (profiles : ProfileOracle) :
    composeCommitMessage (get_pr_info [("bob", ⟨"Bob B", "bob@x.com"⟩)] profiles
      { number := 42, title := "Fix bug", userName := none, userLogin := "alice",
        headRef := "patch-1", headSha := "abc123", body := some "Short fix.",
        reviews := [⟨"APPROVED", "bob"⟩], mergeable := true,
        mergeableState := "clean", mergeResult := ⟨true, "", ""⟩ }) =
    "Merge 'Fix bug' from alice\n\nShort fix.\n\nReviewed-by: Bob B <bob@x.com>\n\nCloses #42" := by
  have h1 : get_pr_info [("bob", ⟨"Bob B", "bob@x.com"⟩)] profiles
      { number := 42, title := "Fix bug", userName := none, userLogin := "alice",
        headRef := "patch-1", headSha := "abc123", body := some "Short fix.",
        reviews := [⟨"APPROVED", "bob"⟩], mergeable := true,
        mergeableState := "clean", mergeResult := ⟨true, "", ""⟩ } =
      ⟨42, "Fix bug", "alice", "patch-1", "abc123", "Short fix.",
        ["Bob B <bob@x.com>"]⟩ := rfl
  rw [h1]
  rfl

/-- C5: the review loop keeps exactly the reviews whose state is exactly
"APPROVED", resolves each approver in the platform's listing order, and does
not deduplicate; on states APPROVED, CHANGES_REQUESTED, APPROVED by users
a, b, a it yields the resolved identity of a twice, in order, excluding b. -/
theorem c5_reviewed_by_filter (m : UserMapping) (profiles : ProfileOracle) :
    (∀ reviews : List Review,
      collectApprovers m profiles reviews =
        (reviews.filter fun r => r.state = "APPROVED").map
          fun r => (get_user_email m profiles r.userLogin).1) ∧
    (∀ a b : String,
      collectApprovers m profiles
          [⟨"APPROVED", a⟩, ⟨"CHANGES_REQUESTED", b⟩, ⟨"APPROVED", a⟩] =
        [(get_user_email m profiles a).1, (get_user_email m profiles a).1]) := by
  have key : ∀ reviews : List Review,
      collectApprovers m profiles reviews =
        (reviews.filter fun r => r.state = "APPROVED").map
          fun r => (get_user_email m profiles r.userLogin).1 := by
    intro reviews
    induction reviews with
    | nil => rfl
    | cons r rs ih =>
      by_cases hs : r.state = "APPROVED"
      · simp [collectApprovers, List.filter, hs, ih]
      · simp [collectApprovers, List.filter, hs, ih]
  exact ⟨key, fun a b => by rw [key]; rfl⟩

/-- C6: a username present in the loaded mapping resolves to exactly
`name <email>` built from the mapped values, with a network-call count of
zero, whatever the profile oracle would answer. -/
theorem c6_mapping_no_network (m : UserMapping) (profiles : ProfileOracle)
    (username : String) (entry : UserEntry)
    (h : lookupUM m username = some entry) :
    get_user_email m profiles username =
      (entry.name ++ " <" ++ entry.email ++ ">", 0) := by
  unfold get_user_email
  rw [h]

/-- Witness for C6 at bob mapped to Bob B <bob@x.com>, with a failing
oracle. -/
theorem c6_mapping_no_network_witness :
    lookupUM [("bob", ⟨"Bob B", "bob@x.com"⟩)] "bob" = some ⟨"Bob B", "bob@x.com"⟩ ∧
    get_user_email [("bob", ⟨"Bob B", "bob@x.com"⟩)] (fun _ => .error "net down") "bob" =
      ("Bob B" ++ " <" ++ "bob@x.com" ++ ">", 0) :=
  ⟨by decide,
   c6_mapping_no_network [("bob", ⟨"Bob B", "bob@x.com"⟩)] (fun _ => .error "net down")
     "bob" ⟨"Bob B", "bob@x.com"⟩ (by decide)⟩

/-- C7: for a username outside the mapping the resolver is total (it returns
a string in the model for every oracle outcome, never propagating the
exception): a failed query yields the synthesized no-reply address; a
successful query with a public email yields `name <email>`; without a public
email it yields `name (@username)`; and the name falls back to the username
when no display name exists. -/
theorem c7_resolver_never_raises (m : UserMapping) (profiles : ProfileOracle)
    (username : String) (h : lookupUM m username = none) :
    (∀ e, profiles username = .error e →
      get_user_email m profiles username =
        (username ++ " <" ++ username ++ "@users.noreply.github.com>", 1)) ∧
    (∀ n e, profiles username = .ok ⟨some n, some e⟩ → n ≠ "" → e ≠ "" →
      get_user_email m profiles username = (n ++ " <" ++ e ++ ">", 1)) ∧
    (∀ n, profiles username = .ok ⟨some n, none⟩ → n ≠ "" →
      get_user_email m profiles username = (n ++ " (@" ++ username ++ ")", 1)) ∧
    (∀ e, profiles username = .ok ⟨none, some e⟩ → e ≠ "" →
      get_user_email m profiles username = (username ++ " <" ++ e ++ ">", 1)) ∧
    (profiles username = .ok ⟨none, none⟩ →
      get_user_email m profiles username =
        (username ++ " (@" ++ username ++ ")", 1)) := by
  refine ⟨?_, ?_, ?_, ?_, ?_⟩
  · intro e he
    unfold get_user_email
    rw [h, he]
  · intro n e he hn hee
    unfold get_user_email
    rw [h, he]
    simp [pyTruthy, hn, hee]
  · intro n he hn
    unfold get_user_email
    rw [h, he]
    simp [pyTruthy, hn]
  · intro e he hee
    unfold get_user_email
    rw [h, he]
    simp [pyTruthy, hee]
  · intro he
    unfold get_user_email
    rw [h, he]
    simp [pyTruthy]

/-- Witness for C7 at an unmapped username with a failing oracle. -/
theorem c7_resolver_never_raises_witness :
    lookupUM [] "zed" = none ∧
    get_user_email [] (fun _ => .error "down") "zed" =
      ("zed" ++ " <" ++ "zed" ++ "@users.noreply.github.com>", 1) :=
  ⟨rfl, (c7_resolver_never_raises [] (fun _ => .error "down") "zed" rfl).1 "down" rfl⟩

/-- C8: under the local strategy the temporary commit-message file is created
before any git command runs and is removed last on every execution path:
all commands succeeding, any command returning non-zero (sys.exit 1), or an
unexpected exception. -/
theorem c8_tempfile_always_removed (fetch checkout merge : CmdBehavior) :
    (merge_pr_local fetch checkout merge).1.head? = some .createTemp ∧
    (merge_pr_local fetch checkout merge).1.getLast? = some .removeTemp := by
  refine ⟨rfl, ?_⟩
  show (LocalEv.createTemp ::
    ((localCmds fetch checkout merge).1 ++ [LocalEv.removeTemp])).getLast? = _
  rw [← List.cons_append, List.getLast?_concat]

/-- The number a decimal digit string denotes. -/
def digitsToNat (l : List Char) : Nat :=
  l.foldl (fun n c => n * 10 + (c.toNat - 48)) 0

/-- C9 counterexample: the argument "0" consists only of digits but denotes
zero, not a positive integer; the claim requires it to exit with code 1, yet
it passes validation and the run proceeds. -/
theorem c9_counterexample_zero :
    mainEntry ["merge_pr.py", "0"] = .run "0" true ∧
    digitsToNat ("0" : String).data = 0 := by decide

/-- The `^\d+$` match accepts exactly a nonempty digit string optionally
followed by one trailing newline. -/
theorem isDigitsMatch_iff (s : String) :
    isDigitsMatch s = true ↔
      ∃ ds : List Char, ds ≠ [] ∧ (∀ c ∈ ds, c.isDigit) ∧
        (s.data = ds ∨ s.data = ds ++ ['\n']) := by
  simp only [isDigitsMatch]
  by_cases hl : s.data.getLast? = some '\n'
  · rw [if_pos hl]
    simp only [Bool.and_eq_true, Bool.not_eq_true', List.isEmpty_eq_false,
      List.all_eq_true]
    constructor
    · rintro ⟨hne, hdig⟩
      exact ⟨s.data.dropLast, hne, fun c hc => hdig c hc,
        Or.inr (List.dropLast_append_getLast? _ hl).symm⟩
    · rintro ⟨ds, hne, hdig, hor⟩
      rcases hor with hor | hor
      · exfalso
        have := List.mem_of_mem_getLast? hl
        rw [hor] at this
        have := hdig _ this
        simp at this
      · rw [hor, List.dropLast_concat]
        exact ⟨hne, hdig⟩
    -- third goal: isEmpty hypothesis shape, handled above
  · rw [if_neg hl]
    simp only [Bool.and_eq_true, Bool.not_eq_true', List.isEmpty_eq_false,
      List.all_eq_true]
    constructor
    · rintro ⟨hne, hdig⟩
      exact ⟨s.data, hne, hdig, Or.inl rfl⟩
    · rintro ⟨ds, hne, hdig, hor⟩
      rcases hor with hor | hor
      · rw [hor]; exact ⟨hne, hdig⟩
      · exfalso
        exact hl (by rw [hor]; exact List.getLast?_concat _)

/-- C9 amended: validation accepts exactly a nonempty digit string optionally
followed by one trailing newline (the Python regex `^\d+$` with `$` also
matching before a final newline); every other pr_number argument makes the
entry point exit with code 1 before merge_pr, the only network site, is
reached; in particular "12a" exits 1. -/
theorem c9_digit_validation (prog s : String) :
    (mainEntry [prog, s] = .run s true ↔
      ∃ ds : List Char, ds ≠ [] ∧ (∀ c ∈ ds, c.isDigit) ∧
        (s.data = ds ∨ s.data = ds ++ ['\n'])) ∧
    mainEntry [prog, "12a"] = .badNumberExit := by
  have hm : mainEntry [prog, s] =
      (if isDigitsMatch s then .run s true else .badNumberExit) := by
    unfold mainEntry
    by_cases hd : isDigitsMatch s = true <;> simp [hd]
  constructor
  · rw [hm, ← isDigitsMatch_iff]
    by_cases hd : isDigitsMatch s = true <;> simp [hd]
  · unfold mainEntry
    have : isDigitsMatch "12a" = false := by decide
    simp [this]

/-! ### Blank lines under wrapping (C10) -/

/-- The wrap loop on an empty chunk list returns the accumulated lines. -/
theorem wrapAux_nil_chunks (w : Nat) (fuel : Nat) (lines : List (List Char)) :
    wrapAux w fuel lines [] = lines.reverse := by
  cases fuel <;> rfl

/-- A list whose Python strip is empty is pure whitespace. -/
theorem all_space_of_pyStrip_nil (l : List Char) (h : pyStrip l = []) :
    ∀ c ∈ l, isSpaceC c := by
  intro c hc
  unfold pyStrip at h
  have h1 : (l.dropWhile isSpaceC).reverse.dropWhile isSpaceC = [] := by
    have := congrArg List.reverse h
    simpa using this
  have h2 : ∀ c ∈ l.dropWhile isSpaceC, isSpaceC c := by
    intro c hc
    exact List.dropWhile_eq_nil_iff.mp h1 c (by simpa using hc)
  rcases List.mem_append.mp
      (by rw [List.takeWhile_append_dropWhile (p := isSpaceC) (l := l)]; exact hc) with
    hm | hm
  · exact List.mem_takeWhile_imp hm
  · exact h2 c hm

/-- Strip of a pure-whitespace list is empty. -/
theorem pyStrip_nil_of_all_space (l : List Char) (h : ∀ c ∈ l, isSpaceC c) :
    pyStrip l = [] := by
  unfold pyStrip
  rw [List.dropWhile_eq_nil_iff.mpr h]
  rfl

/-- expandtabs maps pure whitespace to pure whitespace. -/
theorem expandTabs_all_space (ts : Nat) (l : List Char) (h : ∀ c ∈ l, isSpaceC c) :
    ∀ col, ∀ c ∈ expandTabsAux ts col l, isSpaceC c := by
  induction l with
  | nil =>
    intro col c hc
    simp [expandTabsAux] at hc
  | cons a rest ih =>
    intro col c hc
    have ha := h a (by simp)
    have hrest : ∀ c ∈ rest, isSpaceC c := fun c hc => h c (by simp [hc])
    unfold expandTabsAux at hc
    split at hc
    · split at hc
      · exact ih hrest _ c hc
      · rcases List.mem_append.mp hc with hm | hm
        · rw [List.eq_of_mem_replicate hm]
          decide
        · exact ih hrest _ c hm
    · split at hc <;>
      · rcases List.mem_cons.mp hc with rfl | hm
        · exact ha
        · exact ih hrest _ c hm

/-- Munging pure whitespace yields a run of spaces. -/
theorem munge_all_space (l : List Char) (h : ∀ c ∈ l, isSpaceC c) :
    munge l = List.replicate (munge l).length ' ' := by
  apply List.eq_replicate_of_mem
  intro b hb
  unfold munge at hb
  rcases List.mem_map.mp hb with ⟨a, ha, rfl⟩
  rw [if_pos (expandTabs_all_space 8 l h 0 a ha)]

/-- textwrap's splitter turns a run of spaces into a single whitespace
chunk. -/
theorem splitChunks_replicate_space (n : Nat) :
    splitChunks (List.replicate n ' ') =
      if n = 0 then [] else [List.replicate n ' '] := by
  have hall : ∀ k : Nat, ∀ c ∈ List.replicate k ' ', isSpaceC c := by
    intro k c hc
    rw [List.eq_of_mem_replicate hc]
    decide
  have htake : ∀ k : Nat, (List.replicate k ' ').takeWhile isSpaceC = List.replicate k ' ' := by
    intro k
    induction k with
    | zero => rfl
    | succ m ih => rw [List.replicate_succ, List.takeWhile_cons_of_pos (by decide), ih]
  cases n with
  | zero => rfl
  | succ m =>
    unfold splitChunks
    rw [List.length_replicate]
    rw [List.replicate_succ]
    unfold splitAuxF
    rw [if_pos (by decide)]
    rw [← List.replicate_succ, htake (m + 1),
      List.dropWhile_eq_nil_iff.mpr (hall (m + 1))]
    simp [wrapAux_nil_chunks]
    cases m <;> rfl

/-- rfind finds no hyphen in a hyphen-free chunk. -/
theorem rfindHyphen_none (chunk : List Char) (bound : Nat)
    (h : ∀ c ∈ chunk, c ≠ '-') : rfindHyphen chunk bound = none := by
  unfold rfindHyphen
  rw [List.filter_eq_nil_iff.mpr ?_]
  · rfl
  · intro p hp
    have h2 : p.2 ∈ chunk := List.mem_of_mem_take (List.snd_mem_of_mem_enum hp)
    simp [h p.2 h2]

/-- The wrap loop emits nothing from a single chunk of spaces: each round
takes at most the width of them, drops them as trailing whitespace and
produces no line. -/
theorem wrapAux_space_chunk (w : Nat) (hw : 1 ≤ w) :
    ∀ fuel n, n ≤ fuel → wrapAux w fuel [] [List.replicate n ' '] = [] := by
  have hstrip : ∀ k : Nat, pyStrip (List.replicate k ' ') = [] := by
    intro k
    apply pyStrip_nil_of_all_space
    intro c hc
    rw [List.eq_of_mem_replicate hc]
    decide
  have hdtw : ∀ k : Nat, dropTrailingWs [List.replicate k ' '] = [] := by
    intro k
    unfold dropTrailingWs
    simp [hstrip k]
  intro fuel
  induction fuel with
  | zero =>
    intro n hn
    rfl
  | succ f ih =>
    intro n hn
    unfold wrapAux
    simp only [List.isEmpty_nil, Bool.not_true, Bool.false_and, Bool.false_eq_true,
      if_false]
    by_cases hfit : n ≤ w
    · have htf : takeFits w 0 [List.replicate n ' '] = ([List.replicate n ' '], []) := by
        unfold takeFits
        rw [List.length_replicate, if_pos (by omega)]
        rfl
      rw [htf]
      simp only
      rw [hdtw n]
      simp [wrapAux_nil_chunks]
    · have hlt : w < n := Nat.lt_of_not_le hfit
      have htf : takeFits w 0 [List.replicate n ' '] = ([], [List.replicate n ' ']) := by
        unfold takeFits
        rw [List.length_replicate, if_neg (by omega)]
      rw [htf]
      simp only [List.length_replicate, List.map_nil, List.sum_nil, if_pos hlt]
      have hyphfree : ∀ c ∈ List.replicate n ' ', c ≠ '-' := by
        intro c hc
        rw [List.eq_of_mem_replicate hc]
        decide
      have hrf : ∀ b, rfindHyphen (List.replicate n ' ') b = none :=
        fun b => rfindHyphen_none _ b hyphfree
      have hlong : handleLongWord w 0 (List.replicate n ' ') =
          (List.replicate w ' ', List.replicate (n - w) ' ') := by
        simp only [handleLongWord, List.length_replicate, hrf, ite_self]
        rw [if_neg (show ¬ w < 1 by omega)]
        rw [Nat.sub_zero, List.take_replicate, List.drop_replicate,
          Nat.min_eq_left (by omega)]
      rw [hlong]
      simp only [List.nil_append]
      rw [hdtw w]
      simp only [List.isEmpty_nil, if_true]
      exact ih (n - w) (by omega)

/-- textwrap.wrap of a line that strips to nothing is empty. -/
theorem textwrapWrap_blank (w : Nat) (hw : 1 ≤ w) (l : List Char)
    (h : pyStrip l = []) : textwrapWrap w l = [] := by
  have hm := munge_all_space l (all_space_of_pyStrip_nil l h)
  unfold textwrapWrap
  rw [hm, splitChunks_replicate_space]
  by_cases hz : (munge l).length = 0
  · rw [if_pos hz]
    rfl
  · rw [if_neg hz]
    exact wrapAux_space_chunk w hw _ _ (by simp [List.length_replicate]; omega)

/-- C10: an input line that is empty or whitespace-only, lying outside a
fenced code block, contributes nothing to wrap_text's output: the wrap loop
on such a line equals the loop on the remaining lines, and textwrap.wrap of
the line is the empty list of lines. -/
theorem c10_blank_lines_dropped (l : List Char) (ls : List (List Char))
    (h : pyStrip l = []) :
    wrapTextLoop 72 (l :: ls) false = wrapTextLoop 72 ls false ∧
    textwrapWrap 72 l = [] := by
  have hblank := textwrapWrap_blank 72 (by omega) l h
  constructor
  · show (if isFenceLine l then l :: wrapTextLoop 72 ls (!false)
      else if (false : Bool) then l :: wrapTextLoop 72 ls true
      else textwrapWrap 72 l ++ wrapTextLoop 72 ls false) = wrapTextLoop 72 ls false
    rw [show isFenceLine l = false from by unfold isFenceLine; rw [h]; rfl]
    simp [hblank]
  · exact hblank

/-- Witness for C10 at the whitespace-only line " \t" followed by "hello". -/
theorem c10_blank_lines_dropped_witness :
    pyStrip (" \t".data) = [] ∧
    wrapTextLoop 72 [" \t".data, "hello".data] false =
      wrapTextLoop 72 ["hello".data] false :=
  ⟨by decide, (c10_blank_lines_dropped (" \t".data) ["hello".data] (by decide)).1⟩

/-! ### Normalized lines round-trip under wrapping (C3, amended) -/

/-- A word fit for exact round-tripping: nonempty, within the width, free of
whitespace and hyphens. -/
def goodWord (w : Nat) (word : List Char) : Prop :=
  word ≠ [] ∧ word.length ≤ w ∧ ∀ c ∈ word, isSpaceC c = false ∧ c ≠ '-'

instance (w : Nat) (word : List Char) : Decidable (goodWord w word) := by
  unfold goodWord
  infer_instance

/-- The splitter's recursion on an empty input yields no chunk. -/
theorem splitAuxF_nil (fuel : Nat) (pre : List Char) :
    splitAuxF fuel pre [] = [] := by
  cases fuel <;> rfl

/-- Intercalating a single list is that list. -/
theorem intercalate_one (sep v : List Char) : List.intercalate sep [v] = v := by
  simp [List.intercalate]

/-- Intercalate unfolds one separator at a time. -/
theorem intercalate_two (sep v u : List Char) (rest : List (List Char)) :
    List.intercalate sep (v :: u :: rest) =
      v ++ sep ++ List.intercalate sep (u :: rest) := by
  simp [List.intercalate, List.intersperse_cons_cons]

/-- A character of an interspaced word list is a space or a character of one
of the words. -/
theorem mem_intercalate_space (ws : List (List Char)) (c : Char)
    (hc : c ∈ List.intercalate [' '] ws) : c = ' ' ∨ ∃ u ∈ ws, c ∈ u := by
  induction ws with
  | nil => simp [List.intercalate] at hc
  | cons v rest ih =>
    cases rest with
    | nil =>
      right
      exact ⟨v, by simp, by simpa [intercalate_one] using hc⟩
    | cons u rest' =>
      rw [intercalate_two] at hc
      rcases List.mem_append.mp hc with hm | hm
      · rcases List.mem_append.mp hm with hm2 | hm2
        · right; exact ⟨v, by simp, hm2⟩
        · left; simpa using hm2
      · rcases ih hm with h | ⟨u', hu', hcu⟩
        · left; exact h
        · right; exact ⟨u', by simp [hu'], hcu⟩

/-- takeWhile over an append whose first part satisfies the predicate. -/
theorem takeWhile_append_all (p : Char → Bool) (a b : List Char)
    (ha : ∀ x ∈ a, p x) : (a ++ b).takeWhile p = a ++ b.takeWhile p := by
  induction a with
  | nil => rfl
  | cons x xs ih =>
    rw [List.cons_append, List.takeWhile_cons_of_pos (ha x (by simp)),
      ih fun x hx => ha x (by simp [hx]), List.cons_append]

/-- dropWhile over an append whose first part satisfies the predicate. -/
theorem dropWhile_append_all (p : Char → Bool) (a b : List Char)
    (ha : ∀ x ∈ a, p x) : (a ++ b).dropWhile p = b.dropWhile p := by
  induction a with
  | nil => rfl
  | cons x xs ih =>
    rw [List.cons_append, List.dropWhile_cons_of_pos (ha x (by simp)),
      ih fun x hx => ha x (by simp [hx])]

/-- Strip of a whitespace-free list is the list itself. -/
theorem pyStrip_eq_self (l : List Char) (h : ∀ c ∈ l, isSpaceC c = false) :
    pyStrip l = l := by
  unfold pyStrip
  have h1 : l.dropWhile isSpaceC = l := by
    cases l with
    | nil => rfl
    | cons x xs => exact List.dropWhile_cons_of_neg (by simp [h x (by simp)])
  rw [h1]
  cases hr : l.reverse with
  | nil => rw [List.reverse_eq_nil_iff.mp hr]; rfl
  | cons y ys =>
    have hy : y ∈ l := by
      have : y ∈ l.reverse := by rw [hr]; simp
      simpa using this
    rw [List.dropWhile_cons_of_neg (by simp [h y hy]), ← hr,
      List.reverse_reverse]

/-- On hyphen-free input the lazy word branch takes the maximal whitespace-free
run: none of the hyphen or em-dash stops can fire. -/
theorem scanWord_span (rest : List Char) : ∀ accRev pre : List Char,
    accRev ≠ [] →
    (∀ c ∈ accRev, isSpaceC c = false ∧ c ≠ '-') →
    (∀ c ∈ rest, c ≠ '-') →
    scanWord pre accRev rest =
      (accRev.reverse ++ rest.takeWhile (fun c => !isSpaceC c),
       rest.dropWhile fun c => !isSpaceC c) := by
  induction rest with
  | nil =>
    intro accRev pre _ _ _
    simp [scanWord]
  | cons c rs ih =>
    intro accRev pre hne hacc hrest
    have hcr : c ≠ '-' := hrest c (by simp)
    have hhb : hyphenBehind (accRev ++ pre) = false := by
      cases accRev with
      | nil => exact absurd rfl hne
      | cons a as =>
        have ha := (hacc a (by simp)).2
        rw [List.cons_append]
        rcases as ++ pre with _ | ⟨b1, _ | ⟨b2, t⟩⟩ <;> simp [hyphenBehind, ha]
    have hed : emDashAhead (c :: rs) = false := by
      unfold emDashAhead
      rw [List.takeWhile_cons_of_neg (by simp [hcr])]
      rfl
    unfold scanWord
    rw [hhb, hed]
    simp only [Bool.false_and, Bool.and_false, Bool.false_eq_true, if_false]
    by_cases hsp : isSpaceC c = true
    · rw [if_pos hsp]
      rw [List.takeWhile_cons_of_neg (by simp [hsp]),
        List.dropWhile_cons_of_neg (by simp [hsp])]
      simp
    · rw [if_neg hsp]
      rw [ih (c :: accRev) pre (by simp)
        (by
          intro x hx
          rcases List.mem_cons.mp hx with rfl | hm
          · exact ⟨by simpa using hsp, hcr⟩
          · exact hacc x hm)
        (fun x hx => hrest x (by simp [hx]))]
      rw [List.takeWhile_cons_of_pos (by simp [hsp]),
        List.dropWhile_cons_of_pos (by simp [hsp])]
      simp

/-- The splitter turns a normalized line into its words interspaced with
single space chunks. -/
theorem splitAuxF_inter (ws : List (List Char)) :
    ∀ (fuel : Nat) (pre : List Char),
    ws ≠ [] →
    (∀ word ∈ ws, word ≠ [] ∧ ∀ c ∈ word, isSpaceC c = false ∧ c ≠ '-') →
    (List.intercalate [' '] ws).length ≤ fuel →
    splitAuxF fuel pre (List.intercalate [' '] ws) =
      List.intersperse [' '] ws := by
  induction ws with
  | nil =>
    intro _ _ h
    exact absurd rfl h
  | cons v rest ih =>
    intro fuel pre _ hgood hfuel
    obtain ⟨hvne, hv⟩ := hgood v (by simp)
    obtain ⟨c, v', rfl⟩ : ∃ c v', v = c :: v' := by
      cases v with
      | nil => exact absurd rfl hvne
      | cons c v' => exact ⟨c, v', rfl⟩
    have hcs : isSpaceC c = false := (hv c (by simp)).1
    have hch : c ≠ '-' := (hv c (by simp)).2
    cases rest with
    | nil =>
      rw [intercalate_one] at hfuel ⊢
      obtain ⟨f, rfl⟩ : ∃ f, fuel = f + 1 := by
        cases fuel with
        | zero => simp at hfuel
        | succ f => exact ⟨f, rfl⟩
      unfold splitAuxF
      rw [if_neg (by simp [hcs])]
      have hed : emDashAhead (c :: v') = false := by
        unfold emDashAhead
        rw [List.takeWhile_cons_of_neg (by simp [hch])]
        rfl
      rw [hed]
      simp only [Bool.and_false, Bool.false_eq_true, if_false]
      rw [scanWord_span v' [c] pre (by simp)
        (by
          intro x hx
          rcases List.mem_cons.mp hx with rfl | hm
          · exact ⟨hcs, hch⟩
          · simp at hm)
        (fun x hx => (hv x (by simp [hx])).2)]
      rw [List.takeWhile_eq_self_iff.mpr (fun x hx => by simp [(hv x (by simp [hx])).1]),
        List.dropWhile_eq_nil_iff.mpr (fun x hx => by simp [(hv x (by simp [hx])).1])]
      simp [splitAuxF_nil, List.intersperse]
    | cons u rest' =>
      obtain ⟨hune, hu⟩ := hgood u (by simp)
      obtain ⟨d, u', rfl⟩ : ∃ d u', u = d :: u' := by
        cases u with
        | nil => exact absurd rfl hune
        | cons d u' => exact ⟨d, u', rfl⟩
      have hds : isSpaceC d = false := (hu d (by simp)).1
      have htail : ∃ t, List.intercalate [' '] ((d :: u') :: rest') = d :: t := by
        cases rest' with
        | nil => exact ⟨u', by rw [intercalate_one]⟩
        | cons x xs => exact ⟨_, by rw [intercalate_two]; rfl⟩
      obtain ⟨t, ht⟩ := htail
      have hline : List.intercalate [' '] ((c :: v') :: (d :: u') :: rest') =
          c :: (v' ++ ' ' :: List.intercalate [' '] ((d :: u') :: rest')) := by
        rw [intercalate_two]
        simp
      rw [hline] at hfuel ⊢
      obtain ⟨f, rfl⟩ : ∃ f, fuel = f + 1 := by
        cases fuel with
        | zero => simp at hfuel
        | succ f => exact ⟨f, rfl⟩
      unfold splitAuxF
      rw [if_neg (by simp [hcs])]
      have hed : emDashAhead (c :: (v' ++ ' ' ::
          List.intercalate [' '] ((d :: u') :: rest'))) = false := by
        unfold emDashAhead
        rw [List.takeWhile_cons_of_neg (by simp [hch])]
        rfl
      rw [hed]
      simp only [Bool.and_false, Bool.false_eq_true, if_false]
      have hnohyph : ∀ x ∈ v' ++ ' ' :: List.intercalate [' '] ((d :: u') :: rest'),
          x ≠ '-' := by
        intro x hx
        rcases List.mem_append.mp hx with hm | hm
        · exact (hv x (by simp [hm])).2
        · rcases List.mem_cons.mp hm with rfl | hm2
          · decide
          · rcases mem_intercalate_space _ x hm2 with rfl | ⟨u'', hu'', hxu⟩
            · decide
            · exact ((hgood u'' (by simp [hu''])).2 x hxu).2
      rw [scanWord_span _ [c] pre (by simp)
        (by
          intro x hx
          rcases List.mem_cons.mp hx with rfl | hm
          · exact ⟨hcs, hch⟩
          · simp at hm)
        hnohyph]
      rw [takeWhile_append_all _ v' _
          (fun x hx => by simp [(hv x (by simp [hx])).1]),
        dropWhile_append_all _ v' _
          (fun x hx => by simp [(hv x (by simp [hx])).1]),
        List.takeWhile_cons_of_neg (by decide),
        List.dropWhile_cons_of_neg (by decide)]
      simp only [List.reverse_cons, List.reverse_nil, List.nil_append,
        List.append_nil, List.cons_append]
      obtain ⟨f', rfl⟩ : ∃ f', f = f' + 1 := by
        cases f with
        | zero => simp at hfuel
        | succ f' => exact ⟨f', rfl⟩
      unfold splitAuxF
      rw [if_pos (show isSpaceC ' ' = true by decide)]
      rw [ht, List.takeWhile_cons_of_pos (show isSpaceC ' ' = true by decide),
        List.takeWhile_cons_of_neg (by simp [hds]),
        List.dropWhile_cons_of_pos (show isSpaceC ' ' = true by decide),
        List.dropWhile_cons_of_neg (by simp [hds]), ← ht]
      simp only [List.reverse_cons, List.reverse_nil, List.nil_append,
        List.cons_append]
      rw [ih f' _ (by simp) (fun word hw => hgood word (by simp [hw]))
        (by
          have := hfuel
          simp only [List.length_cons, List.length_append] at this ⊢
          omega)]
      rw [List.intersperse_cons_cons]

/-- Interspersing a nonempty list starts with its head. -/
theorem intersperse_head (u : List Char) (rest : List (List Char)) :
    ∃ t, List.intersperse [' '] (u :: rest) = u :: t := by
  cases rest with
  | nil => exact ⟨[], rfl⟩
  | cons x xs => exact ⟨_, List.intersperse_cons_cons ..⟩

/-- Flattening the interspaced chunks is intercalation. -/
theorem flatten_intersperse (ws : List (List Char)) :
    (List.intersperse [' '] ws).flatten = List.intercalate [' '] ws := by
  simp [List.intercalate]

/-- The last chunk of an interspaced word list is the last word. -/
theorem intersperse_getLast (ws : List (List Char)) :
    (List.intersperse [' '] ws).getLast? = ws.getLast? := by
  induction ws with
  | nil => rfl
  | cons v rest ih =>
    cases rest with
    | nil => rfl
    | cons u rest' =>
      obtain ⟨t, ht⟩ := intersperse_head u rest'
      rw [List.intersperse_cons_cons, ht]
      rw [show (v :: [' '] :: u :: t).getLast? = (u :: t).getLast? by
        rw [List.getLast?_cons_cons, List.getLast?_cons_cons]]
      rw [← ht, ih, List.getLast?_cons_cons]

/-- Intercalation splits across an append of nonempty parts. -/
theorem intercalate_append_ne (B : List (List Char)) :
    ∀ A : List (List Char), A ≠ [] → B ≠ [] →
    List.intercalate [' '] (A ++ B) =
      List.intercalate [' '] A ++ ' ' :: List.intercalate [' '] B := by
  intro A
  induction A with
  | nil => intro hA _; exact absurd rfl hA
  | cons v A' ih =>
    intro _ hB
    cases A' with
    | nil =>
      cases B with
      | nil => exact absurd rfl hB
      | cons u B' =>
        rw [show ([v] ++ u :: B') = v :: u :: B' from rfl, intercalate_two,
          intercalate_one]
        simp
    | cons v2 A'' =>
      rw [show ((v :: v2 :: A'') ++ B) = v :: v2 :: (A'' ++ B) from rfl]
      rw [intercalate_two, show (v2 :: (A'' ++ B)) = (v2 :: A'') ++ B from rfl]
      rw [ih (by simp) hB, intercalate_two]
      simp

/-- A good word survives stripping. -/
theorem goodWord_strip (w : Nat) (word : List Char) (h : goodWord w word) :
    (pyStrip word).isEmpty = false := by
  obtain ⟨hne, _, hch⟩ := h
  rw [pyStrip_eq_self word fun c hc => (hch c hc).1]
  exact List.isEmpty_eq_false.mpr hne

/-- The defining equation of `takeFits` on the empty chunk list. -/
theorem takeFits_nil (w cur : Nat) : takeFits w cur [] = ([], []) := rfl

/-- One step of the greedy inner loop. -/
theorem takeFits_cons (w cur : Nat) (c : List Char) (rest : List (List Char)) :
    takeFits w cur (c :: rest) =
      if cur + c.length ≤ w then
        (c :: (takeFits w (cur + c.length) rest).1,
         (takeFits w (cur + c.length) rest).2)
      else ([], c :: rest) := by
  simp only [takeFits]

/-- The greedy inner loop on interspaced words: some nonempty prefix of the
words is taken, and the break (when there is one) falls either after a
separating space (the space being taken and later dropped as trailing
whitespace) or before one (the space left at the head of the rest). -/
theorem takeFits_inter (w : Nat) :
    ∀ (vs : List (List Char)) (v : List Char) (cur : Nat),
    (∀ word ∈ vs, word.length ≤ w) →
    cur + v.length ≤ w →
    ∃ A B, v :: vs = A ++ B ∧ A ≠ [] ∧
      ((B = [] ∧ takeFits w cur (List.intersperse [' '] (v :: vs)) =
          (List.intersperse [' '] A, [])) ∨
       (B ≠ [] ∧
        (takeFits w cur (List.intersperse [' '] (v :: vs)) =
            (List.intersperse [' '] A ++ [[' ']], List.intersperse [' '] B) ∨
         takeFits w cur (List.intersperse [' '] (v :: vs)) =
            (List.intersperse [' '] A, [' '] :: List.intersperse [' '] B)))) := by
  intro vs
  induction vs with
  | nil =>
    intro v cur _ hv
    refine ⟨[v], [], by simp, by simp, Or.inl ⟨rfl, ?_⟩⟩
    rw [List.intersperse_singleton, takeFits_cons, if_pos hv, takeFits_nil]
  | cons u vs' ih =>
    intro v cur hlen hv
    rw [List.intersperse_cons_cons]
    obtain ⟨X, hX⟩ := intersperse_head u vs'
    by_cases hsp : cur + v.length + 1 ≤ w
    · have hsp' : cur + v.length + [' '].length ≤ w := by
        simpa using hsp
      have hstep : takeFits w cur (v :: [' '] :: List.intersperse [' '] (u :: vs')) =
          (v :: [' '] :: (takeFits w (cur + v.length + 1)
            (List.intersperse [' '] (u :: vs'))).1,
           (takeFits w (cur + v.length + 1)
            (List.intersperse [' '] (u :: vs'))).2) := by
        rw [takeFits_cons, if_pos hv, takeFits_cons, if_pos hsp']
        simp only [List.length_cons, List.length_nil, Nat.zero_add]
      by_cases hu : cur + v.length + 1 + u.length ≤ w
      · obtain ⟨A', B', hsplit, hA'ne, hforms⟩ :=
          ih u (cur + v.length + 1) (fun x hx => hlen x (by simp [hx])) hu
        refine ⟨v :: A', B', by rw [List.cons_append, ← hsplit], by simp, ?_⟩
        obtain ⟨a0, A'', rfl⟩ : ∃ a0 A'', A' = a0 :: A'' := by
          cases A' with
          | nil => exact absurd rfl hA'ne
          | cons a0 A'' => exact ⟨a0, A'', rfl⟩
        rcases hforms with ⟨hB', heq⟩ | ⟨hB', heq⟩
        · refine Or.inl ⟨hB', ?_⟩
          rw [hstep, heq, List.intersperse_cons_cons]
        · refine Or.inr ⟨hB', ?_⟩
          rcases heq with heq | heq
          · refine Or.inl ?_
            rw [hstep, heq, List.intersperse_cons_cons]
            rfl
          · refine Or.inr ?_
            rw [hstep, heq, List.intersperse_cons_cons]
      · refine ⟨[v], u :: vs', rfl, by simp, Or.inr ⟨by simp, Or.inl ?_⟩⟩
        rw [hstep]
        rw [hX, takeFits_cons, if_neg (by simp; omega), ← hX,
          List.intersperse_singleton]
        rfl
    · refine ⟨[v], u :: vs', rfl, by simp, Or.inr ⟨by simp, Or.inr ?_⟩⟩
      rw [takeFits_cons, if_pos hv, takeFits_cons,
        if_neg (by simp; omega), List.intersperse_singleton]

/-- Dropping trailing whitespace removes a final space chunk. -/
theorem dropTrailingWs_concat_space (l : List (List Char)) :
    dropTrailingWs (l ++ [[' ']]) = l := by
  unfold dropTrailingWs
  rw [show (l ++ [[' ']]).reverse = [' '] :: l.reverse by simp]
  dsimp only
  rw [if_pos (by decide)]
  simp

/-- Dropping trailing whitespace keeps a line ending in a non-blank chunk. -/
theorem dropTrailingWs_keep (l : List (List Char)) (x : List Char)
    (hx : l.getLast? = some x) (hxs : (pyStrip x).isEmpty = false) :
    dropTrailingWs l = l := by
  unfold dropTrailingWs
  cases hr : l.reverse with
  | nil => rfl
  | cons y ys =>
    have hyx : y = x := by
      have h1 : l.reverse.head? = some y := by rw [hr]; rfl
      rw [List.head?_reverse, hx] at h1
      exact (Option.some_inj.mp h1).symm
    dsimp only
    rw [hyx, if_neg (by simp [hxs])]

/-- A leading space chunk on a continuation line is dropped, after which the
iteration coincides with the iteration on the remaining chunks. -/
theorem wrapAux_cons_space (w f : Nat) (lines : List (List Char))
    (cs : List (List Char)) (hl : lines ≠ [])
    (hcs : ∀ d, cs.head? = some d → (pyStrip d).isEmpty = false) :
    wrapAux w (f + 1) lines ([' '] :: cs) = wrapAux w (f + 1) lines cs := by
  have hle : lines.isEmpty = false := List.isEmpty_eq_false.mpr hl
  cases cs with
  | nil =>
    show wrapAux w (f + 1) lines [[' ']] = lines.reverse
    unfold wrapAux
    simp only [hle, Bool.not_false, Bool.true_and,
      show (pyStrip [' ']).isEmpty = true by decide, if_true]
    simp [takeFits, dropTrailingWs, wrapAux_nil_chunks]
  | cons d ds =>
    have hd := hcs d rfl
    unfold wrapAux
    simp only [hle, Bool.not_false, Bool.true_and,
      show (pyStrip [' ']).isEmpty = true by decide, if_true, hd,
      Bool.false_eq_true, if_false]

/-- The wrap loop on interspaced good words appends, to the lines already
made, a nonempty block of lines whose single-space rejoining is the original
single-space word list: greedy filling breaks only at the separating spaces
and drops exactly those spaces. -/
theorem wrapAux_inter (w : Nat) (hw : 1 ≤ w) :
    ∀ (fuel : Nat) (ws : List (List Char)) (lines : List (List Char)),
    ws ≠ [] → (∀ word ∈ ws, goodWord w word) → 2 * ws.length ≤ fuel →
    ∃ K, K ≠ [] ∧
      wrapAux w fuel lines (List.intersperse [' '] ws) = lines.reverse ++ K ∧
      List.intercalate [' '] K = List.intercalate [' '] ws := by
  intro fuel
  induction fuel with
  | zero =>
    intro ws lines hne _ hfuel
    cases ws with
    | nil => exact absurd rfl hne
    | cons v vs => simp at hfuel
  | succ f ih =>
    intro ws lines hne hgood hfuel
    obtain ⟨v, vs, rfl⟩ : ∃ v vs, ws = v :: vs := by
      cases ws with
      | nil => exact absurd rfl hne
      | cons v vs => exact ⟨v, vs, rfl⟩
    obtain ⟨X, hX⟩ := intersperse_head v vs
    have hvgood := hgood v (by simp)
    have hvstrip : (pyStrip v).isEmpty = false := goodWord_strip w v hvgood
    obtain ⟨A, B, hsplit, hAne, hforms⟩ :=
      takeFits_inter w vs v 0 (fun x hx => (hgood x (by simp [hx])).2.1)
        (by simpa using hvgood.2.1)
    have hAgood : ∀ word ∈ A, goodWord w word := fun word hm =>
      hgood word (by rw [hsplit]; exact List.mem_append.mpr (Or.inl hm))
    have hBgood : ∀ word ∈ B, goodWord w word := fun word hm =>
      hgood word (by rw [hsplit]; exact List.mem_append.mpr (Or.inr hm))
    have hAlast : dropTrailingWs (List.intersperse [' '] A) =
        List.intersperse [' '] A := by
      obtain ⟨a0, A', rfl⟩ : ∃ a0 A', A = a0 :: A' := by
        cases A with
        | nil => exact absurd rfl hAne
        | cons a0 A' => exact ⟨a0, A', rfl⟩
      have hgl : (List.intersperse [' '] (a0 :: A')).getLast? =
          (a0 :: A').getLast? := intersperse_getLast (a0 :: A')
      obtain ⟨x, hx⟩ : ∃ x, (a0 :: A').getLast? = some x :=
        ⟨(a0 :: A').getLast (by simp), List.getLast?_eq_getLast _ _⟩
      exact dropTrailingWs_keep _ x (by rw [hgl, hx])
        (goodWord_strip w x (hAgood x (List.mem_of_mem_getLast? hx)))
    have hAflat : ∃ t, List.intersperse [' '] A = t ∧ t ≠ [] := by
      obtain ⟨a0, A', rfl⟩ : ∃ a0 A', A = a0 :: A' := by
        cases A with
        | nil => exact absurd rfl hAne
        | cons a0 A' => exact ⟨a0, A', rfl⟩
      obtain ⟨t, ht⟩ := intersperse_head a0 A'
      exact ⟨a0 :: t, ht, by simp⟩
    rw [hX]
    unfold wrapAux
    simp only [hvstrip, Bool.and_false, Bool.false_eq_true, if_false]
    rw [← hX]
    rcases hforms with ⟨hB, heq⟩ | ⟨hB, heq⟩
    · -- every chunk fits: one line holds all the words
      subst hB
      rw [List.append_nil] at hsplit
      subst hsplit
      rw [heq]
      simp only
      rw [hAlast]
      obtain ⟨t, ht, htne⟩ := hAflat
      rw [ht]
      rw [show t.isEmpty = false from List.isEmpty_eq_false.mpr htne]
      simp only [Bool.false_eq_true, if_false]
      rw [wrapAux_nil_chunks]
      refine ⟨[t.flatten], by simp, by simp, ?_⟩
      rw [intercalate_one, ← ht, flatten_intersperse]
    · -- a break: the taken words make one line, the rest recurses
      obtain ⟨b0, B', rfl⟩ : ∃ b0 B', B = b0 :: B' := by
        cases B with
        | nil => exact absurd rfl hB
        | cons b0 B' => exact ⟨b0, B', rfl⟩
      obtain ⟨Y, hY⟩ := intersperse_head b0 B'
      have hb0 : b0.length ≤ w := (hBgood b0 (by simp)).2.1
      have hlenB : 2 * (b0 :: B').length ≤ f := by
        have h1 : (v :: vs).length = A.length + (b0 :: B').length := by
          rw [hsplit, List.length_append]
        have h2 : 1 ≤ A.length := List.length_pos.mpr hAne
        omega
      obtain ⟨t, ht, htne⟩ := hAflat
      have hlineflat : (List.intersperse [' '] A).isEmpty = false := by
        rw [ht]
        exact List.isEmpty_eq_false.mpr htne
      have hfinish : ∀ lines',
          lines' = (List.intersperse [' '] A).flatten :: lines →
          (∃ K', K' ≠ [] ∧
            wrapAux w f lines' (List.intersperse [' '] (b0 :: B')) =
              lines'.reverse ++ K' ∧
            List.intercalate [' '] K' = List.intercalate [' '] (b0 :: B')) →
          ∃ K, K ≠ [] ∧
            wrapAux w f lines' (List.intersperse [' '] (b0 :: B')) =
              lines.reverse ++ K ∧
            List.intercalate [' '] K = List.intercalate [' '] (v :: vs) := by
        intro lines' hl' ⟨K', hK'ne, hK'eq, hK'join⟩
        refine ⟨(List.intersperse [' '] A).flatten :: K', by simp, ?_, ?_⟩
        · rw [hK'eq, hl']
          simp
        · obtain ⟨k0, K'', rfl⟩ : ∃ k0 K'', K' = k0 :: K'' := by
            cases K' with
            | nil => exact absurd rfl hK'ne
            | cons k0 K'' => exact ⟨k0, K'', rfl⟩
          rw [intercalate_two, hK'join, flatten_intersperse, hsplit,
            intercalate_append_ne (b0 :: B') A hAne (by simp)]
          simp
      rcases heq with heq | heq
      · -- the break is after a separating space: it is taken then dropped
        rw [heq]
        dsimp only
        rw [hY]
        dsimp only
        rw [if_neg (show ¬ w < b0.length by omega)]
        dsimp only
        rw [dropTrailingWs_concat_space, hlineflat]
        simp only [Bool.false_eq_true, if_false]
        rw [← hY]
        exact hfinish _ rfl (ih (b0 :: B') _ (by simp) hBgood hlenB)
      · -- the break is before a separating space: it heads the rest and the
        -- next iteration drops it
        rw [heq]
        dsimp only
        rw [if_neg (show ¬ w < ([' '] : List Char).length by
          simp only [List.length_cons, List.length_nil]
          omega)]
        dsimp only
        rw [hAlast, hlineflat]
        simp only [Bool.false_eq_true, if_false]
        obtain ⟨f', rfl⟩ : ∃ f', f = f' + 1 := by
          cases f with
          | zero => simp at hlenB
          | succ f' => exact ⟨f', rfl⟩
        rw [wrapAux_cons_space w f' _ _ (by simp) (by
          intro d hd
          rw [hY] at hd
          injection hd with hd
          exact hd ▸ goodWord_strip w b0 (hBgood b0 (by simp)))]
        exact hfinish _ rfl (ih (b0 :: B') _ (by simp) hBgood hlenB)

/-- expandtabs fixes tab-free text. -/
theorem expandTabs_id (ts : Nat) (l : List Char) (h : ∀ c ∈ l, c ≠ '\t') :
    ∀ col, expandTabsAux ts col l = l := by
  induction l with
  | nil => intro col; rfl
  | cons a rest ih =>
    intro col
    unfold expandTabsAux
    rw [if_neg (h a (by simp))]
    split
    · rw [ih (fun c hc => h c (by simp [hc])) 0]
    · rw [ih (fun c hc => h c (by simp [hc])) (col + 1)]

/-- A map that fixes every member fixes the list. -/
theorem map_self (f : Char → Char) (l : List Char) (h : ∀ c ∈ l, f c = c) :
    l.map f = l := by
  induction l with
  | nil => rfl
  | cons a rest ih =>
    rw [List.map_cons, h a (by simp), ih fun c hc => h c (by simp [hc])]

/-- Munging fixes text whose whitespace is plain spaces. -/
theorem munge_id (l : List Char) (h : ∀ c ∈ l, c = ' ' ∨ isSpaceC c = false) :
    munge l = l := by
  unfold munge
  rw [expandTabs_id 8 l (by
    intro c hc
    rcases h c hc with rfl | hns
    · decide
    · intro htab
      rw [htab] at hns
      exact absurd hns (by decide)) 0]
  apply map_self
  intro c hc
  rcases h c hc with rfl | hns
  · rw [if_pos (by decide)]
  · rw [if_neg (by simp [hns])]

/-- An interspaced nonempty word list has one chunk less than twice the word
count. -/
theorem length_intersperse_succ (ws : List (List Char)) (h : ws ≠ []) :
    (List.intersperse [' '] ws).length + 1 = 2 * ws.length := by
  induction ws with
  | nil => exact absurd rfl h
  | cons v rest ih =>
    cases rest with
    | nil => rfl
    | cons u rest' =>
      rw [List.intersperse_cons_cons]
      have := ih (by simp)
      simp only [List.length_cons] at this ⊢
      omega

/-- A fence line passes through and toggles the code-block flag. -/
theorem wrapTextLoop_fence (width : Nat) (l : List Char) (ls : List (List Char))
    (h : isFenceLine l = true) :
    wrapTextLoop width (l :: ls) false = l :: wrapTextLoop width ls true := by
  show (if isFenceLine l then l :: wrapTextLoop width ls (!false)
    else if (false : Bool) then l :: wrapTextLoop width ls true
    else textwrapWrap width l ++ wrapTextLoop width ls false) =
    l :: wrapTextLoop width ls true
  rw [h]
  simp

/-- While the code-block flag is set, lines pass through byte-identically
until a fence line. -/
theorem wrapTextLoop_inCode (width : Nat) : ∀ ls : List (List Char),
    (∀ l ∈ ls, isFenceLine l = false) → wrapTextLoop width ls true = ls := by
  intro ls
  induction ls with
  | nil => intro _; rfl
  | cons l ls' ih =>
    intro h
    have hl := h l (by simp)
    show (if isFenceLine l then l :: wrapTextLoop width ls' (!true)
      else if (true : Bool) then l :: wrapTextLoop width ls' true
      else textwrapWrap width l ++ wrapTextLoop width ls' false) = l :: ls'
    rw [hl]
    simp [ih fun x hx => h x (by simp [hx])]

/-- C3, amended: wrapping collapses whitespace only at the wrap points (the
counterexample `c3_counterexample_inner_run` shows an inner run surviving
verbatim, refuting the claim as stated). What holds is: (1) for every line
made of single-space-separated, hyphen-free, whitespace-free words of at
most 72 characters, wrapping and rejoining the wrapped lines with single
spaces reproduces the line byte-exactly — the greedy wrapper breaks only at
the separating spaces and drops exactly those; (2) a fence line passes
through unmodified, toggling the code-block flag; (3) lines inside a fenced
code block pass through byte-identically. -/
theorem c3_amended_roundtrip :
    (∀ ws : List (List Char), ws ≠ [] → (∀ word ∈ ws, goodWord 72 word) →
      List.intercalate [' '] (textwrapWrap 72 (List.intercalate [' '] ws)) =
        List.intercalate [' '] ws) ∧
    (∀ (l : List Char) (ls : List (List Char)), isFenceLine l = true →
      wrapTextLoop 72 (l :: ls) false = l :: wrapTextLoop 72 ls true) ∧
    (∀ ls : List (List Char), (∀ l ∈ ls, isFenceLine l = false) →
      wrapTextLoop 72 ls true = ls) := by
  refine ⟨?_, wrapTextLoop_fence 72, wrapTextLoop_inCode 72⟩
  intro ws hne hgood
  have hchars : ∀ c ∈ List.intercalate [' '] ws,
      c = ' ' ∨ (isSpaceC c = false ∧ c ≠ '-') := by
    intro c hc
    rcases mem_intercalate_space ws c hc with rfl | ⟨u, hu, hcu⟩
    · left; rfl
    · right; exact (hgood u hu).2.2 c hcu
  simp only [textwrapWrap]
  rw [munge_id _ fun c hc => (hchars c hc).imp id And.left]
  rw [show splitChunks (List.intercalate [' '] ws) = List.intersperse [' '] ws from by
    unfold splitChunks
    exact splitAuxF_inter ws _ [] hne
      (fun word hw => ⟨(hgood word hw).1, (hgood word hw).2.2⟩) le_rfl]
  have hfuel : 2 * ws.length ≤
      (List.intersperse [' '] ws).length +
        ((List.intersperse [' '] ws).map List.length).sum + 1 := by
    have h1 := length_intersperse_succ ws hne
    omega
  obtain ⟨K, hKne, hKeq, hKjoin⟩ :=
    wrapAux_inter 72 (by omega) _ ws [] hne hgood hfuel
  rw [hKeq]
  simpa using hKjoin

/-- Witness for the amended C3: "hello world" round-trips, and a fence line
passes through. -/
theorem c3_amended_roundtrip_witness :
    List.intercalate [' ']
        (textwrapWrap 72 (List.intercalate [' '] ["hello".data, "world".data])) =
      List.intercalate [' '] ["hello".data, "world".data] ∧
    wrapTextLoop 72 ["```".data, "x  y".data] false =
      "```".data :: wrapTextLoop 72 ["x  y".data] true :=
  ⟨c3_amended_roundtrip.1 ["hello".data, "world".data] (by decide) (by decide),
   c3_amended_roundtrip.2.1 "```".data ["x  y".data] (by decide)⟩

/-- C3 counterexample: on the input "a  b" no line break is inserted at all
(the wrapped output is the input itself), so removing inserted line breaks
reproduces "a  b"; but the claim demands the original with internal
whitespace runs collapsed to single spaces, which is "a b". The two
differ: textwrap preserves a whitespace run that stays within one line. -/
theorem c3_counterexample_inner_run :
    wrap_text "a  b" = "a  b" ∧ collapseWsS "a  b" = "a b" ∧
    ("a  b" : String) ≠ "a b" := by decide

end MergePr
